import Mathlib

/-!
# Verification of the `tplgen` template-generator core

A shallow embedding of `src/main.rs` of the `tplgen` repository:

* `Json` models `serde_json::Value`; object entries are kept as an
  association list (the Rust `serde_json::Map` is a key-unique map, which
  the `WF` predicate captures; all claims are stated through `alookup`,
  which matches `Map::get`).
* `merge`, `mergeObj`, `upsert` embed `App::merge` (main.rs:101-112).
* `get_data` embeds `App::get_data` (main.rs:114-159); the I/O outcome of
  opening and parsing one value file is abstracted as a `VFileRead`.
* `filter_file`, `canonicalName`, `register_templates`, `get_engine` embed the
  discovery code (main.rs:194-255); directory-walk results are abstracted as
  `Option DirEntry` items and the success of `register_template_file` as a
  `regOk` field.
* `generate` embeds `App::generate` (main.rs:257-271) with the filesystem
  outcomes supplied by an oracle.
-/

namespace Tplgen

/-- Model of `serde_json::Value`.  Numbers are modelled as `Int` (no claim
computes with numbers).  Objects are association lists; `serde_json::Map`
guarantees key-uniqueness, captured separately by `WF`. -/
inductive Json where
  | null
  | bool (b : Bool)
  | num (n : Int)
  | str (s : String)
  | arr (elems : List Json)
  | obj (entries : List (String × Json))

/-- `true` iff the value is a JSON object (`Value::Object`). -/
def Json.isObj : Json → Bool
  | .obj _ => true
  | _ => false

/-- Association-list lookup; models `Map::get` / first-match lookup. -/
def alookup {κ α : Type} [DecidableEq κ] : List (κ × α) → κ → Option α
  | [], _ => none
  | (k', v) :: t, k => if k' = k then some v else alookup t k

/-- Association-list insert with overwrite; models `Map::insert` /
`HashMap::insert` with respect to lookups (replace the binding if the key is
present, append otherwise). -/
def insertKV {κ α : Type} [DecidableEq κ] : List (κ × α) → κ → α → List (κ × α)
  | [], k, v => [(k, v)]
  | (k', v') :: t, k, v => if k' = k then (k, v) :: t else (k', v') :: insertKV t k v

/-- Key-uniqueness invariant of `serde_json::Value`: every object (at any
depth) of the tree has pairwise-distinct keys, as a `serde_json::Map` does by
construction. -/
inductive WF : Json → Prop where
  | null : WF .null
  | bool (b : Bool) : WF (.bool b)
  | num (n : Int) : WF (.num n)
  | str (s : String) : WF (.str s)
  | arr (l : List Json) : (∀ v ∈ l, WF v) → WF (.arr l)
  | obj (m : List (String × Json)) : (m.map Prod.fst).Nodup →
      (∀ kv ∈ m, WF kv.2) → WF (.obj m)

mutual

/-- Embeds `App::merge` (main.rs:101-112): both objects merge recursively
key-by-key, any other combination is replaced by the second argument. -/
def merge : Json → Json → Json
  | .obj ma, .obj mb => .obj (mergeObj ma mb)
  | _, b => b
termination_by _ b => (sizeOf b, 0)

/-- The `for (k, v) in b` loop of `App::merge`: fold the entries of `b` into
`a` one by one. -/
def mergeObj (a : List (String × Json)) : List (String × Json) → List (String × Json)
  | [] => a
  | (k, v) :: rest => mergeObj (upsert a k v) rest
termination_by l => (sizeOf l, 0)

/-- `a.entry(k.clone()).or_insert(Value::Null)` followed by the recursive
`merge` call: merge `v` into the existing binding of `k`, or into `Null` when
`k` is absent (appending the new binding). -/
def upsert : List (String × Json) → String → Json → List (String × Json)
  | [], k, v => [(k, merge .null v)]
  | (k', v') :: t, k, v =>
    if k' = k then (k', merge v' v) :: t else (k', v') :: upsert t k v
termination_by l _ v => (sizeOf v + 1, sizeOf l)

end

/-! ## Context building: `App::get_data` (main.rs:114-159) -/

/-- The observable outcome of the body of the `for path in &opt.values` loop
head for one value file (main.rs:121-140): whether `File::open` succeeded,
which parser the extension dispatch chose, and that parser's result.
`yamlVal none` models a successful YAML parse whose `to_value` conversion
failed; `jsonRead none` models a failed `from_reader` JSON parse — in both
cases the code merges `unwrap_or_default()`, i.e. `Value::Null`. -/
inductive VFileRead where
  | openFail
  | yamlErr
  | yamlVal (conv : Option Json)
  | jsonRead (v : Option Json)

/-- The value a file contributes to the running merge, if any:
`none` means the loop body does not call `App::merge` for this file. -/
def readValue : VFileRead → Option Json
  | .openFail => none
  | .yamlErr => none
  | .yamlVal none => some .null
  | .yamlVal (some v) => some v
  | .jsonRead none => some .null
  | .jsonRead (some v) => some v

/-- One iteration of the value-file loop of `App::get_data`. -/
def processFile (obj : Json) (f : VFileRead) : Json :=
  match readValue f with
  | none => obj
  | some v => merge obj v

/-- `Value::Object(std::env::vars().map(|(k, v)| (k, to_value(v).unwrap())).collect())`
(main.rs:118): every environment variable becomes a string-valued entry. -/
def envSeed (env : List (String × String)) : Json :=
  .obj (env.map (fun kv => (kv.1, Json.str kv.2)))

/-- Embeds `App::get_data` (main.rs:114-159).  `env` is the process
environment (`std::env::vars()`, distinct variable names), `files` the
open/parse outcomes of `opt.values` in order. -/
def get_data (noEnv preferEnv : Bool) (env : List (String × String))
    (files : List VFileRead) : Json :=
  let obj0 := if !noEnv && !preferEnv then envSeed env else .obj []
  let obj1 := files.foldl processFile obj0
  if !noEnv && preferEnv then
    let mapping :=
      match obj1 with
      | .obj m => m
      | _ => []
    .obj (env.foldl (fun m kv => insertKV m kv.1 (Json.str kv.2)) mapping)
  else obj1

/-- Lookup of a key in the root of the final context. -/
def jlookup (j : Json) (k : String) : Option Json :=
  match j with
  | .obj m => alookup m k
  | _ => none
/-! ## Template discovery: `App::filter_file` and `App::register_templates`
(main.rs:194-255)

Paths are modelled as `List Char` (Rust slices `&str` by byte index; the
claims only involve ASCII paths, where the two agree).  A directory-walk
item is `Option DirEntry`: `none` models an `Err` walk entry (filtered out
by `e.is_ok()`), and the `regOk` field models whether
`register_template_file` succeeds for that entry (i.e. the template body
compiles). -/

/-- Rust `str::starts_with(c)` for a one-character pattern. -/
def startsWithChar (s : List Char) (c : Char) : Bool :=
  match s with
  | [] => false
  | c' :: _ => c' == c

/-- A walk entry as `App::filter_file` and the registration loop observe it:
its full path, its `file_name()`, whether `is_file()` holds, and whether
registering it succeeds. -/
structure DirEntry where
  path : List Char
  fileName : Option (List Char)
  isFile : Bool
  regOk : Bool

/-- Embeds `App::filter_file` (main.rs:194-206): `true` means the entry is
ignored.  Non-files are kept out of registration by the caller re-checking
nothing — the walk registers exactly the entries with `filter_file = false`. -/
def filter_file (e : DirEntry) (suffix : List Char) : Bool :=
  !e.isFile ||
    (match e.fileName with
     | some ds =>
         startsWithChar ds '~' || startsWithChar ds '#' ||
           !(suffix.isSuffixOf ds)
     | none => true)

/-- `dir_path.to_string_lossy().ends_with(|c| c == '\\' || c == '/')`
(main.rs:225-229). -/
def endsWithSep (s : List Char) : Bool :=
  match s.getLast? with
  | some c => (c == '\\') || (c == '/')
  | none => false

/-- The `prefix_len` computation of `App::register_templates`
(main.rs:225-233). -/
def prefixLen (root : List Char) : Nat :=
  if endsWithSep root then root.length else root.length + 1

/-- `tpl_name.replace(path::MAIN_SEPARATOR, "/")` (main.rs:249). -/
def sepToSlash (sep : Char) (s : List Char) : List Char :=
  s.map (fun c => if c == sep then '/' else c)

/-- The canonical template name of a walk entry (main.rs:247-249):
`&path[prefix_len .. path.len() - ext.len()]` with separators replaced. -/
def canonicalName (sep : Char) (ext root path : List Char) : List Char :=
  sepToSlash sep ((path.take (path.length - ext.length)).drop (prefixLen root))

/-- Rust `Path::file_name` for a plain file path: the part after the last
separator. -/
def baseName (sep : Char) (p : List Char) : List Char :=
  (p.reverse.takeWhile (fun c => !(c == sep))).reverse

/-- Rust `Path::file_stem` applied to a file name: the portion before the
final `.`, or the whole name when there is no dot or the only dot is
leading. -/
def fileStem (name : List Char) : List Char :=
  let before := ((name.reverse.dropWhile (fun c => !(c == '.'))).drop 1).reverse
  if before.isEmpty then name else before

/-- The handlebars registry, as observed through names: canonical name ↦
source path (`register_template_file` inserts with overwrite). -/
abbrev Registry := List (List Char × List Char)

/-- The `for entry in dir_iter` loop of `App::register_templates`
(main.rs:236-252): `Err` walk items and filtered entries are skipped, a
successful registration inserts into the registry, a failed registration
returns `Err` at once (the `?` on `register_template_file`), abandoning the
rest of the walk. -/
def registerWalk (ext : List Char) (sep : Char) (root : List Char) :
    Registry → List (Option DirEntry) → Registry × Bool
  | reg, [] => (reg, true)
  | reg, none :: rest => registerWalk ext sep root reg rest
  | reg, some e :: rest =>
    if filter_file e ext then
      registerWalk ext sep root reg rest
    else if e.regOk then
      registerWalk ext sep root
        (insertKV reg (canonicalName sep ext root e.path) e.path) rest
    else
      (reg, false)

/-- An input root: either a regular file (`dir_path.is_file()`, with the
outcome of registering it) or a directory with its walk items. -/
inductive Input where
  | file (path : List Char) (regOk : Bool)
  | dir (path : List Char) (items : List (Option DirEntry))

/-- Embeds `App::register_templates` (main.rs:208-255).  A file root is
registered under its file stem without any suffix check (main.rs:216-221);
a directory root is walked. -/
def register_templates (ext : List Char) (sep : Char) (reg : Registry) :
    Input → Registry × Bool
  | .file p regOk =>
    if regOk then (insertKV reg (fileStem (baseName sep p)) p, true)
    else (reg, false)
  | .dir p items => registerWalk ext sep p reg items

/-- Embeds the input loop of `App::get_engine` (main.rs:187-190): every
input is scanned, a root's failure is logged and dropped (`.log().ok()`). -/
def get_engine (ext : List Char) (sep : Char) (inputs : List Input) : Registry :=
  inputs.foldl (fun reg i => (register_templates ext sep reg i).1) []

/-! ## Render dispatch: `App::generate` (main.rs:257-271)

The filesystem/engine outcomes for one template are supplied by an oracle;
`dirOk` models `create_dir_all` (its result is discarded by `.log().ok()`,
main.rs:263, so it influences nothing directly), `createOk` models
`File::create`, `renderOk` models `render_to_write`. -/

/-- Per-template outcomes of the three fallible steps of the dispatch loop. -/
structure GenOutcome where
  dirOk : Bool
  createOk : Bool
  renderOk : Bool

/-- What happened for one template: rendered and written, render failed after
the file was created, or the output file could not be created. -/
inductive GenStatus where
  | wroteOk
  | renderFailed
  | createFailed

/-- `self.opt.output.join(name)` (main.rs:260). -/
def joinPath (sep : Char) (out name : List Char) : List Char :=
  out ++ sep :: name

/-- Embeds `App::generate` (main.rs:257-271): one pass over the registry; a
`create_dir_all` failure is discarded, a `File::create` failure logs and
skips the render, a render failure logs; nothing aborts the loop. -/
def generate (sep : Char) (out : List Char) (oracle : List Char → GenOutcome)
    (reg : Registry) : List (List Char × List Char × GenStatus) :=
  reg.map (fun nt =>
    (nt.1, joinPath sep out nt.1,
      if (oracle nt.1).createOk then
        (if (oracle nt.1).renderOk then .wroteOk else .renderFailed)
      else .createFailed))


/-! # Lemmas and claims -/

/-! ## Basic facts about `merge`, `alookup`, `insertKV`, `upsert` -/

lemma merge_obj_obj (ma mb : List (String × Json)) :
    merge (.obj ma) (.obj mb) = .obj (mergeObj ma mb) := by
  simp [merge]

lemma merge_of_isObj_false_left {a : Json} (b : Json) (h : a.isObj = false) :
    merge a b = b := by
  cases a <;> cases b <;> simp_all [merge, Json.isObj]

lemma merge_of_isObj_false_right (a : Json) {b : Json} (h : b.isObj = false) :
    merge a b = b := by
  cases a <;> cases b <;> simp_all [merge, Json.isObj]

lemma merge_null_left (b : Json) : merge .null b = b :=
  merge_of_isObj_false_left b rfl

lemma mergeObj_nil (a : List (String × Json)) : mergeObj a [] = a := by
  simp [mergeObj]

lemma mergeObj_cons (a : List (String × Json)) (k : String) (v : Json)
    (rest : List (String × Json)) :
    mergeObj a ((k, v) :: rest) = mergeObj (upsert a k v) rest := by
  simp [mergeObj]

lemma alookup_insertKV_self {κ α : Type} [DecidableEq κ]
    (l : List (κ × α)) (k : κ) (v : α) :
    alookup (insertKV l k v) k = some v := by
  induction l with
  | nil => simp [insertKV, alookup]
  | cons hd t ih =>
    obtain ⟨k', v'⟩ := hd
    by_cases h : k' = k <;> simp [insertKV, alookup, h, ih]

lemma alookup_insertKV_ne {κ α : Type} [DecidableEq κ]
    (l : List (κ × α)) (k k' : κ) (v : α) (h : k ≠ k') :
    alookup (insertKV l k v) k' = alookup l k' := by
  induction l with
  | nil => simp [insertKV, alookup, h]
  | cons hd t ih =>
    obtain ⟨k₀, v₀⟩ := hd
    by_cases h₀ : k₀ = k <;> simp [insertKV, alookup, h₀, h, ih]

lemma alookup_eq_none_iff {κ α : Type} [DecidableEq κ]
    (l : List (κ × α)) (k : κ) :
    alookup l k = none ↔ k ∉ l.map Prod.fst := by
  induction l with
  | nil => simp [alookup]
  | cons hd t ih =>
    obtain ⟨k', v'⟩ := hd
    by_cases h : k' = k
    · subst h
      simp [alookup]
    · simp only [alookup, if_neg h, List.map_cons, List.mem_cons, not_or, ih]
      constructor
      · intro hn
        exact ⟨fun he => h he.symm, hn⟩
      · rintro ⟨-, hn⟩
        exact hn

lemma alookup_of_mem_of_nodup {α : Type}
    (l : List (String × α)) (k : String) (v : α)
    (hnd : (l.map Prod.fst).Nodup) (hmem : (k, v) ∈ l) :
    alookup l k = some v := by
  induction l with
  | nil => simp at hmem
  | cons hd t ih =>
    obtain ⟨k', v'⟩ := hd
    simp only [List.map_cons, List.nodup_cons] at hnd
    rcases List.mem_cons.mp hmem with heq | hmem'
    · rw [Prod.mk.injEq] at heq
      obtain ⟨rfl, rfl⟩ := heq
      simp [alookup]
    · have hk : k' ≠ k := by
        rintro rfl
        exact hnd.1 (List.mem_map.mpr ⟨(k', v), hmem', rfl⟩)
      simp [alookup, hk, ih hnd.2 hmem']

lemma alookup_upsert_self (l : List (String × Json)) (k : String) (v : Json) :
    alookup (upsert l k v) k = some (merge ((alookup l k).getD .null) v) := by
  induction l with
  | nil => simp [upsert, alookup]
  | cons hd t ih =>
    obtain ⟨k', v'⟩ := hd
    by_cases h : k' = k <;> simp [upsert, alookup, h, ih]

lemma alookup_upsert_ne (l : List (String × Json)) (k k' : String) (v : Json)
    (h : k ≠ k') :
    alookup (upsert l k v) k' = alookup l k' := by
  induction l with
  | nil => simp [upsert, alookup, h]
  | cons hd t ih =>
    obtain ⟨k₀, v₀⟩ := hd
    by_cases h₀ : k₀ = k <;> simp [upsert, alookup, h₀, h, ih]

lemma upsert_nop (l : List (String × Json)) (k : String) (v w : Json)
    (hl : alookup l k = some w) (hw : merge w v = w) :
    upsert l k v = l := by
  induction l with
  | nil => simp [alookup] at hl
  | cons hd t ih =>
    obtain ⟨k', v'⟩ := hd
    by_cases h : k' = k
    · subst h
      simp only [alookup, if_true, eq_self_iff_true, Option.some.injEq] at hl
      subst hl
      simp [upsert, hw]
    · simp only [alookup, if_neg h] at hl
      simp [upsert, h, ih hl]

/-- A key absent from `bl` is untouched by the entry loop of `App::merge`. -/
lemma alookup_mergeObj_not_mem (bl : List (String × Json)) (k : String)
    (hk : alookup bl k = none) :
    ∀ al, alookup (mergeObj al bl) k = alookup al k := by
  induction bl with
  | nil => intro al; simp [mergeObj]
  | cons hd rest ih =>
    obtain ⟨k₀, v₀⟩ := hd
    intro al
    simp only [alookup] at hk
    by_cases h : k₀ = k
    · simp [h] at hk
    · simp only [if_neg h] at hk
      rw [mergeObj_cons, ih hk, alookup_upsert_ne _ _ _ _ h]

/-- A key of `bl` (unique keys) ends bound to the merge of the old binding
(`Null` when absent) with `bl`'s value. -/
lemma alookup_mergeObj_mem (bl : List (String × Json)) (k : String) (vb : Json)
    (hnd : (bl.map Prod.fst).Nodup) (hk : alookup bl k = some vb) :
    ∀ al, alookup (mergeObj al bl) k =
      some (merge ((alookup al k).getD .null) vb) := by
  induction bl with
  | nil => simp [alookup] at hk
  | cons hd rest ih =>
    obtain ⟨k₀, v₀⟩ := hd
    intro al
    simp only [List.map_cons, List.nodup_cons] at hnd
    simp only [alookup] at hk
    by_cases h : k₀ = k
    · subst h
      simp only [if_true, eq_self_iff_true, Option.some.injEq] at hk
      subst hk
      have hrest : alookup rest k₀ = none :=
        (alookup_eq_none_iff rest k₀).mpr hnd.1
      rw [mergeObj_cons, alookup_mergeObj_not_mem rest k₀ hrest,
        alookup_upsert_self]
    · simp only [if_neg h] at hk
      rw [mergeObj_cons, ih hnd.2 hk, alookup_upsert_ne _ _ _ _ h]


lemma alookup_envSeed (env : List (String × String)) (k : String) :
    alookup (env.map (fun kv => (kv.1, Json.str kv.2))) k =
      (alookup env k).map Json.str := by
  induction env with
  | nil => simp [alookup]
  | cons hd t ih =>
    obtain ⟨k', v'⟩ := hd
    by_cases h : k' = k <;> simp [alookup, h, ih]

lemma alookup_foldl_insertKV_not_mem {κ α : Type} [DecidableEq κ]
    (l : List (κ × α)) (k : κ) (hk : alookup l k = none) :
    ∀ m : List (κ × α),
      alookup (l.foldl (fun m kv => insertKV m kv.1 kv.2) m) k = alookup m k := by
  induction l with
  | nil => intro m; simp
  | cons hd t ih =>
    obtain ⟨k₀, v₀⟩ := hd
    intro m
    simp only [alookup] at hk
    by_cases h : k₀ = k
    · simp [h] at hk
    · simp only [if_neg h] at hk
      simp only [List.foldl_cons]
      rw [ih hk, alookup_insertKV_ne _ _ _ _ h]

lemma alookup_foldl_insertKV_mem {κ α : Type} [DecidableEq κ]
    (l : List (κ × α)) (k : κ) (v : α)
    (hnd : (l.map Prod.fst).Nodup) (hk : alookup l k = some v) :
    ∀ m : List (κ × α),
      alookup (l.foldl (fun m kv => insertKV m kv.1 kv.2) m) k = some v := by
  induction l with
  | nil => simp [alookup] at hk
  | cons hd t ih =>
    obtain ⟨k₀, v₀⟩ := hd
    intro m
    simp only [List.map_cons, List.nodup_cons] at hnd
    simp only [alookup] at hk
    by_cases h : k₀ = k
    · subst h
      simp only [if_true, eq_self_iff_true, Option.some.injEq] at hk
      subst hk
      have ht : alookup t k₀ = none := (alookup_eq_none_iff t k₀).mpr hnd.1
      simp only [List.foldl_cons]
      rw [alookup_foldl_insertKV_not_mem t k₀ ht, alookup_insertKV_self]
    · simp only [if_neg h] at hk
      simp only [List.foldl_cons]
      exact ih hnd.2 hk _

lemma foldl_insert_str (env : List (String × String)) :
    ∀ m, env.foldl (fun m kv => insertKV m kv.1 (Json.str kv.2)) m =
      (env.map (fun kv => (kv.1, Json.str kv.2))).foldl
        (fun m kv => insertKV m kv.1 kv.2) m := by
  induction env with
  | nil => intro m; simp
  | cons hd t ih => intro m; simp [ih]

/-- The string-valued entries that the `prefer_env` overlay inserts
(main.rs:152-154). -/
lemma alookup_env_overlay (env : List (String × String)) (k : String) (s : String)
    (hnd : (env.map Prod.fst).Nodup) (hk : alookup env k = some s) :
    ∀ m, alookup
      (env.foldl (fun m kv => insertKV m kv.1 (Json.str kv.2)) m) k =
        some (Json.str s) := by
  intro m
  rw [foldl_insert_str env m]
  refine alookup_foldl_insertKV_mem _ k (Json.str s) ?_ ?_ m
  · simpa [List.map_map, Function.comp] using hnd
  · rw [alookup_envSeed env k, hk]
    rfl

/-! ## Idempotence of `App::merge` in its second argument -/

/-- If every entry of `bl` already merges trivially into its binding in `al`,
the whole entry loop is a no-op. -/
lemma mergeObj_nop : ∀ bl al : List (String × Json),
    (∀ kv ∈ bl, ∃ w, alookup al kv.1 = some w ∧ merge w kv.2 = w) →
    mergeObj al bl = al := by
  intro bl
  induction bl with
  | nil => intro al _; simp [mergeObj]
  | cons hd rest ih =>
    obtain ⟨k, v⟩ := hd
    intro al h
    obtain ⟨w, hw1, hw2⟩ := h (k, v) (List.mem_cons_self _ _)
    rw [mergeObj_cons, upsert_nop al k v w hw1 hw2]
    exact ih al (fun kv hkv => h kv (List.mem_cons_of_mem _ hkv))

/-- Folding the entries of `bl` (unique keys, value-level idempotence given)
twice is the same as folding them once. -/
lemma mergeObj_idem : ∀ bl : List (String × Json),
    (bl.map Prod.fst).Nodup →
    (∀ kv ∈ bl, ∀ x, merge (merge x kv.2) kv.2 = merge x kv.2) →
    ∀ al, mergeObj (mergeObj al bl) bl = mergeObj al bl := by
  intro bl
  induction bl with
  | nil => intro _ _ al; simp [mergeObj]
  | cons hd rest ih =>
    obtain ⟨k, v⟩ := hd
    intro hnd hv al
    simp only [List.map_cons, List.nodup_cons] at hnd
    have hkrest : alookup rest k = none := (alookup_eq_none_iff rest k).mpr hnd.1
    have hlook : alookup (mergeObj (upsert al k v) rest) k =
        some (merge ((alookup al k).getD .null) v) := by
      rw [alookup_mergeObj_not_mem rest k hkrest, alookup_upsert_self]
    have hid : merge (merge ((alookup al k).getD .null) v) v =
        merge ((alookup al k).getD .null) v :=
      hv (k, v) (List.mem_cons_self _ _) _
    rw [mergeObj_cons, mergeObj_cons, upsert_nop _ k v _ hlook hid]
    exact ih hnd.2 (fun kv hkv => hv kv (List.mem_cons_of_mem _ hkv)) (upsert al k v)

/-- Strong induction on the size of `b`: merging a well-formed `b` twice is
the same as merging it once, and the self-merge of a well-formed value is the
value itself. -/
lemma merge_idem_aux : ∀ (n : Nat) (b : Json), sizeOf b ≤ n → WF b →
    (∀ a, merge (merge a b) b = merge a b) ∧ merge b b = b := by
  intro n
  induction n using Nat.strong_induction_on with
  | _ n IH =>
    intro b hb hwf
    cases hobj : b.isObj with
    | false =>
      constructor
      · intro a
        rw [merge_of_isObj_false_right (merge a b) hobj,
          merge_of_isObj_false_right a hobj]
      · exact merge_of_isObj_false_right b hobj
    | true =>
      cases b with
      | obj mb =>
        have hval : ∀ kv ∈ mb,
            (∀ a, merge (merge a kv.2) kv.2 = merge a kv.2) ∧
              merge kv.2 kv.2 = kv.2 := by
          intro kv hkv
          have hsz : sizeOf kv.2 < sizeOf (Json.obj mb) := by
            have h1 : sizeOf kv < sizeOf mb := List.sizeOf_lt_of_mem hkv
            obtain ⟨k, v⟩ := kv
            simp only [Json.obj.sizeOf_spec, Prod.mk.sizeOf_spec] at *
            omega
          have hwfv : WF kv.2 := by
            cases hwf with
            | obj _ _ hv => exact hv kv hkv
          exact IH (sizeOf kv.2) (lt_of_lt_of_le hsz hb) kv.2 le_rfl hwfv
        have hnd : (mb.map Prod.fst).Nodup := by
          cases hwf with
          | obj _ h _ => exact h
        have hobjidem : ∀ al, mergeObj (mergeObj al mb) mb = mergeObj al mb :=
          mergeObj_idem mb hnd (fun kv h => (hval kv h).1)
        have hself : mergeObj mb mb = mb := by
          refine mergeObj_nop mb mb ?_
          intro kv hkv
          refine ⟨kv.2, ?_, (hval kv hkv).2⟩
          exact alookup_of_mem_of_nodup mb kv.1 kv.2 hnd (by
            obtain ⟨k, v⟩ := kv
            exact hkv)
        constructor
        · intro a
          cases ha : a.isObj with
          | true =>
            cases a with
            | obj ma =>
              rw [merge_obj_obj, merge_obj_obj, hobjidem ma]
            | null => simp [Json.isObj] at ha
            | bool b => simp [Json.isObj] at ha
            | num n => simp [Json.isObj] at ha
            | str s => simp [Json.isObj] at ha
            | arr l => simp [Json.isObj] at ha
          | false =>
            rw [merge_of_isObj_false_left (Json.obj mb) ha, merge_obj_obj, hself]
        · rw [merge_obj_obj, hself]
      | null => simp [Json.isObj] at hobj
      | bool b => simp [Json.isObj] at hobj
      | num n => simp [Json.isObj] at hobj
      | str s => simp [Json.isObj] at hobj
      | arr l => simp [Json.isObj] at hobj

/-- C1: environment participation is controlled exactly by the two flags.
With `no_env` set, the built context is independent of the environment even
when `prefer_env` is set.  With both flags clear, the environment seeds the
context before the value files are merged, so a key defined both by the
environment and by a value file ends with the file's value.  With `no_env`
clear and `prefer_env` set, the environment is inserted after all value files
merged, so such a shared key ends with the environment's string value. -/
theorem claim_C1 :
    (∀ preferEnv env files,
        get_data true preferEnv env files = get_data true preferEnv [] files)
    ∧ (∀ (env : List (String × String)) (k s : String)
          (m : List (String × Json)) (v : Json),
        (env.map Prod.fst).Nodup →
        alookup env k = some s →
        (m.map Prod.fst).Nodup →
        alookup m k = some v →
        jlookup (get_data false false env [.jsonRead (some (.obj m))]) k = some v)
    ∧ (∀ (env : List (String × String)) (files : List VFileRead) (k s : String),
        (env.map Prod.fst).Nodup →
        alookup env k = some s →
        jlookup (get_data false true env files) k = some (Json.str s)) := by
  refine ⟨?_, ?_, ?_⟩
  · intro preferEnv env files
    simp [get_data]
  · intro env k s m v hnde hke hndm hkm
    have hseed : alookup (env.map (fun kv => (kv.1, Json.str kv.2))) k =
        some (Json.str s) := by
      rw [alookup_envSeed env k, hke]
      rfl
    have hm := alookup_mergeObj_mem m k v hndm hkm
      (env.map (fun kv => (kv.1, Json.str kv.2)))
    rw [hseed] at hm
    simp [get_data, envSeed, processFile, readValue, merge_obj_obj, jlookup,
      hm, merge_of_isObj_false_left v (a := Json.str s) rfl]
  · intro env files k s hnde hke
    simp only [get_data, Bool.not_false, Bool.and_false, Bool.and_true, if_false,
      if_true, jlookup]
    exact alookup_env_overlay env k s hnde hke _

theorem claim_C1_witness :
    jlookup (get_data false false [("FOO", "env")]
        [.jsonRead (some (.obj [("FOO", .str "file")]))]) "FOO" =
      some (.str "file")
    ∧ jlookup (get_data false true [("FOO", "env")]
        [.jsonRead (some (.obj [("FOO", .str "file")]))]) "FOO" =
      some (.str "env") := by
  constructor
  · exact claim_C1.2.1 [("FOO", "env")] "FOO" "env" [("FOO", .str "file")]
      (.str "file") (by simp) rfl (by simp) rfl
  · exact claim_C1.2.2 [("FOO", "env")]
      [.jsonRead (some (.obj [("FOO", .str "file")]))] "FOO" "env" (by simp) rfl

/-- C3 counterexample: with `no_env = true` (so no environment overlay runs)
and a single value file parsing to the non-mapping document `42`, the built
context is `42` itself — the root of the context is not a mapping and no
empty mapping was substituted for the document. -/
theorem claim_C3_counterexample :
    get_data true false [] [.jsonRead (some (.num 42))] = .num 42
    ∧ (get_data true false [] [.jsonRead (some (.num 42))]).isObj = false := by
  constructor
  · simp [get_data, processFile, readValue, merge]
  · simp [get_data, processFile, readValue, merge, Json.isObj]

/-- C3 amended: the context root is guaranteed to be a mapping only when the
environment overlay runs (`no_env = false` and `prefer_env = true`); there a
non-mapping accumulated value is replaced by an empty mapping (with a
warning).  In every other flag combination a successfully parsed non-mapping
document replaces the whole accumulated context and becomes the root, with no
warning and no substitution. -/
theorem claim_C3_amended :
    (∀ env files, (get_data false true env files).isObj = true)
    ∧ (∀ (noEnv preferEnv : Bool) (env : List (String × String))
          (files : List VFileRead) (v : Json),
        (noEnv || !preferEnv) = true →
        v.isObj = false →
        get_data noEnv preferEnv env (files ++ [.jsonRead (some v)]) = v) := by
  constructor
  · intro env files
    simp [get_data, Json.isObj]
  · intro noEnv preferEnv env files v hcond hv
    have hme : ∀ x, merge x v = v := fun x => merge_of_isObj_false_right x hv
    cases noEnv with
    | true =>
      simp [get_data, List.foldl_append, processFile, readValue, hme]
    | false =>
      cases preferEnv with
      | true => simp at hcond
      | false =>
        simp [get_data, List.foldl_append, processFile, readValue, hme]

theorem claim_C3_amended_witness :
    (get_data false true [("A", "a")] [.openFail]).isObj = true
    ∧ get_data true true [] ([] ++ [.jsonRead (some (.num 7))]) = .num 7 :=
  ⟨claim_C3_amended.1 [("A", "a")] [.openFail],
    claim_C3_amended.2 true true [] [] (.num 7) rfl rfl⟩

/-- C4: evaluation of `App::get_data` at the failing input.  A value file
whose JSON content fails to parse merges `unwrap_or_default()` = `Value::Null`
(main.rs:136), which replaces the whole accumulated context: after a first
file contributed `{"FOO": "x"}`, the failing JSON file leaves the context
`Null` — it does not "contribute nothing".  A YAML parse failure at the same
position, by contrast, is skipped and leaves the context unchanged
(main.rs:126-130). -/
theorem claim_C4_json_parse_failure_wipes_context :
    get_data true false []
        [.jsonRead (some (.obj [("FOO", .str "x")])), .jsonRead none] = .null
    ∧ get_data true false []
        [.jsonRead (some (.obj [("FOO", .str "x")])), .yamlErr] =
      .obj [("FOO", .str "x")] := by
  constructor
  · simp [get_data, processFile, readValue, merge, mergeObj, upsert]
  · simp [get_data, processFile, readValue, merge, mergeObj, upsert]

/-- C2: the deep-merge semantics of `App::merge`.  When both values are
mappings (unique keys, as `serde_json::Map` guarantees), a key present only
in `A` keeps `A`'s value, a key present only in `B` gets `B`'s value, and a
key present in both gets the recursive merge of the two values.  In every
other combination `B` entirely replaces `A` — in particular sequences are
never merged element-wise. -/
theorem claim_C2 :
    (∀ (ma mb : List (String × Json)) (k : String),
        (mb.map Prod.fst).Nodup →
        (alookup mb k = none →
          jlookup (merge (.obj ma) (.obj mb)) k = alookup ma k)
        ∧ (∀ vb, alookup mb k = some vb → alookup ma k = none →
            jlookup (merge (.obj ma) (.obj mb)) k = some vb)
        ∧ (∀ va vb, alookup ma k = some va → alookup mb k = some vb →
            jlookup (merge (.obj ma) (.obj mb)) k = some (merge va vb)))
    ∧ (∀ a b : Json, (a.isObj && b.isObj) = false → merge a b = b) := by
  constructor
  · intro ma mb k hnd
    refine ⟨?_, ?_, ?_⟩
    · intro hnone
      rw [merge_obj_obj]
      simp only [jlookup]
      exact alookup_mergeObj_not_mem mb k hnone ma
    · intro vb hb ha
      rw [merge_obj_obj]
      simp only [jlookup]
      rw [alookup_mergeObj_mem mb k vb hnd hb, ha]
      simp [merge_null_left]
    · intro va vb ha hb
      rw [merge_obj_obj]
      simp only [jlookup]
      rw [alookup_mergeObj_mem mb k vb hnd hb, ha]
      rfl
  · intro a b h
    cases ha : a.isObj with
    | false => exact merge_of_isObj_false_left b ha
    | true =>
      have hb : b.isObj = false := by simpa [ha] using h
      exact merge_of_isObj_false_right a hb

theorem claim_C2_witness :
    jlookup (merge (.obj [("a", .num 1)]) (.obj [("b", .num 2)])) "a" =
      alookup [("a", Json.num 1)] "a"
    ∧ jlookup (merge (.obj [("a", .num 1)]) (.obj [("b", .num 2)])) "b" =
      some (.num 2)
    ∧ jlookup (merge (.obj [("a", .obj [("x", .num 1)])])
        (.obj [("a", .obj [("y", .num 2)])])) "a" =
      some (merge (.obj [("x", .num 1)]) (.obj [("y", .num 2)]))
    ∧ merge (.num 1) (.obj [("x", .num 1)]) = .obj [("x", .num 1)] := by
  refine ⟨?_, ?_, ?_, ?_⟩
  · exact (claim_C2.1 [("a", .num 1)] [("b", .num 2)] "a" (by simp)).1 rfl
  · exact (claim_C2.1 [("a", .num 1)] [("b", .num 2)] "b" (by simp)).2.1
      (.num 2) rfl rfl
  · exact (claim_C2.1 [("a", .obj [("x", .num 1)])] [("a", .obj [("y", .num 2)])]
      "a" (by simp)).2.2 (.obj [("x", .num 1)]) (.obj [("y", .num 2)]) rfl rfl
  · exact claim_C2.2 (.num 1) (.obj [("x", .num 1)]) rfl

/-- C10: `App::merge` is idempotent in its second argument — merging `B` into
`A` and then merging `B` again yields the same value as merging `B` once, and
merging a value into an equal copy of itself leaves it unchanged (for values
satisfying the key-uniqueness invariant of `serde_json::Value`). -/
theorem claim_C10 : ∀ a b : Json,
    (WF b → merge (merge a b) b = merge a b) ∧ (WF a → merge a a = a) := by
  intro a b
  constructor
  · intro hwf
    exact (merge_idem_aux (sizeOf b) b le_rfl hwf).1 a
  · intro hwf
    exact (merge_idem_aux (sizeOf a) a le_rfl hwf).2

theorem claim_C10_witness :
    merge (merge (.obj [("a", .num 1)]) (.obj [("k", .obj [("x", .num 2)])]))
        (.obj [("k", .obj [("x", .num 2)])]) =
      merge (.obj [("a", .num 1)]) (.obj [("k", .obj [("x", .num 2)])])
    ∧ merge (.obj [("k", .obj [("x", .num 2)])])
        (.obj [("k", .obj [("x", .num 2)])]) =
      .obj [("k", .obj [("x", .num 2)])] := by
  have hwf : WF (Json.obj [("k", Json.obj [("x", Json.num 2)])]) := by
    refine WF.obj _ (by simp) ?_
    intro kv hkv
    simp only [List.mem_singleton] at hkv
    subst hkv
    refine WF.obj _ (by simp) ?_
    intro kv hkv
    simp only [List.mem_singleton] at hkv
    subst hkv
    exact WF.num 2
  exact ⟨(claim_C10 (.obj [("a", .num 1)]) (.obj [("k", .obj [("x", .num 2)])])).1 hwf,
    (claim_C10 (.obj [("k", .obj [("x", .num 2)])]) (.obj [("k", .obj [("x", .num 2)])])).2 hwf⟩

/-- C5: for a walk entry `root ++ sep ++ core ++ ext` under a root not ending
in a separator, the canonical name strips the root plus exactly one
separator and the trailing suffix, replacing separators by `/`; when the
root already ends in a separator no extra character is stripped; concretely,
`root/a/b.txt.hbs` under `root` with suffix `.hbs` yields `a/b.txt` with
either platform separator. -/
theorem claim_C5 :
    (∀ (sep : Char) (ext root core : List Char), endsWithSep root = false →
        canonicalName sep ext root (root ++ sep :: (core ++ ext)) =
          sepToSlash sep core)
    ∧ (∀ (sep : Char) (ext root core : List Char), endsWithSep root = true →
        canonicalName sep ext root (root ++ (core ++ ext)) = sepToSlash sep core)
    ∧ canonicalName '/' ".hbs".toList "root".toList "root/a/b.txt.hbs".toList =
        "a/b.txt".toList
    ∧ canonicalName '\\' ".hbs".toList "root".toList "root\\a\\b.txt.hbs".toList =
        "a/b.txt".toList := by
  refine ⟨?_, ?_, by rfl, by rfl⟩
  · intro sep ext root core h
    have e1 : root ++ sep :: (core ++ ext) = ((root ++ [sep]) ++ core) ++ ext := by
      simp
    simp only [canonicalName, prefixLen, h, Bool.false_eq_true, if_false, e1]
    rw [List.length_append, Nat.add_sub_cancel, List.take_left,
      List.drop_left' (by simp)]
  · intro sep ext root core h
    have e1 : root ++ (core ++ ext) = (root ++ core) ++ ext := by
      simp
    simp only [canonicalName, prefixLen, h, if_true, e1]
    rw [List.length_append, Nat.add_sub_cancel, List.take_left, List.drop_left]

theorem claim_C5_witness :
    endsWithSep "root".toList = false
    ∧ canonicalName '/' ".hbs".toList "root".toList
        ("root".toList ++ '/' :: ("a/b.txt".toList ++ ".hbs".toList)) =
      sepToSlash '/' "a/b.txt".toList :=
  ⟨by rfl,
    claim_C5.1 '/' ".hbs".toList "root".toList "a/b.txt".toList (by rfl)⟩

/-- C6 counterexample: a directory root whose first matching entry fails to
register and whose second entry is valid.  The claim says only the single
failing entry is skipped and the remaining entries still register; in fact
the `?` on `register_template_file` aborts the walk of that root, so the
second entry (canonical name `b`) is never registered and the final registry
is empty. -/
theorem claim_C6_counterexample :
    get_engine ".hbs".toList '/'
        [.dir "root".toList
          [some ⟨"root/a.hbs".toList, some "a.hbs".toList, true, false⟩,
           some ⟨"root/b.hbs".toList, some "b.hbs".toList, true, true⟩]] = []
    ∧ alookup
        (get_engine ".hbs".toList '/'
          [.dir "root".toList
            [some ⟨"root/a.hbs".toList, some "a.hbs".toList, true, false⟩,
             some ⟨"root/b.hbs".toList, some "b.hbs".toList, true, true⟩]])
        "b".toList = none := by
  exact ⟨rfl, rfl⟩

/-- C6 amended: a registration failure aborts the remaining entries of that
input root's walk (everything after the failing entry is as if absent), but
the failure is logged at the call site and is not fatal: the remaining input
roots are still scanned, starting from whatever the failed root had
registered before the failure. -/
theorem claim_C6_amended :
    (∀ (ext : List Char) (sep : Char) (root : List Char) (reg : Registry)
        (pre post : List (Option DirEntry)) (e : DirEntry),
      filter_file e ext = false → e.regOk = false →
      registerWalk ext sep root reg (pre ++ some e :: post) =
        registerWalk ext sep root reg (pre ++ [some e]))
    ∧ (∀ (ext : List Char) (sep : Char) (i : Input) (inputs : List Input),
      get_engine ext sep (i :: inputs) =
        inputs.foldl (fun reg j => (register_templates ext sep reg j).1)
          (register_templates ext sep [] i).1) := by
  constructor
  · intro ext sep root reg pre post e hf hr
    induction pre generalizing reg with
    | nil => simp [registerWalk, hf, hr]
    | cons it rest ih =>
      cases it with
      | none => simpa [registerWalk] using ih reg
      | some e' =>
        cases h1 : filter_file e' ext with
        | true => simpa [registerWalk, h1] using ih reg
        | false =>
          cases h2 : e'.regOk with
          | true => simpa [registerWalk, h1, h2] using ih _
          | false => simp [registerWalk, h1, h2]
  · intro ext sep i inputs
    rfl

theorem claim_C6_amended_witness :
    filter_file ⟨"root/a.hbs".toList, some "a.hbs".toList, true, false⟩
        ".hbs".toList = false
    ∧ registerWalk ".hbs".toList '/' "root".toList []
        ([] ++ some ⟨"root/a.hbs".toList, some "a.hbs".toList, true, false⟩ ::
          [some ⟨"root/b.hbs".toList, some "b.hbs".toList, true, true⟩]) =
      registerWalk ".hbs".toList '/' "root".toList []
        ([] ++ [some ⟨"root/a.hbs".toList, some "a.hbs".toList, true, false⟩]) :=
  ⟨by rfl,
    claim_C6_amended.1 ".hbs".toList '/' "root".toList [] []
      [some ⟨"root/b.hbs".toList, some "b.hbs".toList, true, true⟩]
      ⟨"root/a.hbs".toList, some "a.hbs".toList, true, false⟩ (by rfl) rfl⟩

/-- C7: during a directory walk, a regular file whose name starts with `~` or
`#`, or whose name does not end with the suffix (exact comparison), is
filtered out, and a filtered entry contributes nothing to the registration
of the walk. -/
theorem claim_C7 :
    (∀ (e : DirEntry) (suffix ds : List Char),
        e.isFile = true → e.fileName = some ds →
        (ds.head? = some '~' ∨ ds.head? = some '#' ∨
          suffix.isSuffixOf ds = false) →
        filter_file e suffix = true)
    ∧ (∀ (ext : List Char) (sep : Char) (root : List Char) (reg : Registry)
          (pre post : List (Option DirEntry)) (e : DirEntry),
        filter_file e ext = true →
        registerWalk ext sep root reg (pre ++ some e :: post) =
          registerWalk ext sep root reg (pre ++ post)) := by
  constructor
  · intro e suffix ds hf hn hcase
    simp only [filter_file, hf, Bool.not_true, Bool.false_or, hn]
    rcases hcase with h | h | h
    · have hs : startsWithChar ds '~' = true := by
        cases ds with
        | nil => simp at h
        | cons c t =>
          simp only [List.head?_cons, Option.some.injEq] at h
          simp [startsWithChar, h]
      simp [hs]
    · have hs : startsWithChar ds '#' = true := by
        cases ds with
        | nil => simp at h
        | cons c t =>
          simp only [List.head?_cons, Option.some.injEq] at h
          simp [startsWithChar, h]
      simp [hs]
    · simp [h]
  · intro ext sep root reg pre post e hf
    induction pre generalizing reg with
    | nil => simp [registerWalk, hf]
    | cons it rest ih =>
      cases it with
      | none => simpa [registerWalk] using ih reg
      | some e' =>
        cases h1 : filter_file e' ext with
        | true => simpa [registerWalk, h1] using ih reg
        | false =>
          cases h2 : e'.regOk with
          | true => simpa [registerWalk, h1, h2] using ih _
          | false => simp [registerWalk, h1, h2]

theorem claim_C7_witness :
    filter_file ⟨"r/~x.hbs".toList, some "~x.hbs".toList, true, true⟩
        ".hbs".toList = true
    ∧ filter_file ⟨"r/a.txt".toList, some "a.txt".toList, true, true⟩
        ".hbs".toList = true
    ∧ registerWalk ".hbs".toList '/' "r".toList []
        ([] ++ some ⟨"r/~x.hbs".toList, some "~x.hbs".toList, true, true⟩ :: []) =
      registerWalk ".hbs".toList '/' "r".toList [] ([] ++ []) :=
  ⟨claim_C7.1 ⟨"r/~x.hbs".toList, some "~x.hbs".toList, true, true⟩
      ".hbs".toList "~x.hbs".toList rfl rfl (Or.inl (by rfl)),
    claim_C7.1 ⟨"r/a.txt".toList, some "a.txt".toList, true, true⟩
      ".hbs".toList "a.txt".toList rfl rfl (Or.inr (Or.inr (by rfl))),
    claim_C7.2 ".hbs".toList '/' "r".toList [] [] []
      ⟨"r/~x.hbs".toList, some "~x.hbs".toList, true, true⟩ (by rfl)⟩

/-- C8: an input root that is a regular file is registered for every suffix
(the suffix is not consulted), its canonical name is its file stem (base
name with extension removed), and the registration is an overwrite-insert
into the registry under that name. -/
theorem claim_C8 :
    ∀ (ext : List Char) (sep : Char) (reg : Registry) (p : List Char),
      (∀ ext' : List Char,
        register_templates ext sep reg (.file p true) =
          register_templates ext' sep reg (.file p true))
      ∧ (register_templates ext sep reg (.file p true)).1 =
          insertKV reg (fileStem (baseName sep p)) p
      ∧ (register_templates ext sep reg (.file p true)).2 = true
      ∧ alookup (register_templates ext sep reg (.file p true)).1
          (fileStem (baseName sep p)) = some p := by
  intro ext sep reg p
  refine ⟨fun ext' => rfl, rfl, rfl, ?_⟩
  simp [register_templates, alookup_insertKV_self]

/-- C9: for every oracle of per-template outcomes, the dispatcher attempts
every (canonical name, template) pair of the registry exactly once and in
registry order, each at output path `output_root` joined with the canonical
name; no failure of any single template removes later templates from the
pass (the attempted names are independent of the oracle), and the pass is a
total function — the run always completes it. -/
theorem claim_C9 :
    ∀ (sep : Char) (out : List Char) (oracle : List Char → GenOutcome)
      (reg : Registry),
      (generate sep out oracle reg).map (fun r => r.1) = reg.map Prod.fst
      ∧ (generate sep out oracle reg).map (fun r => r.2.1) =
          reg.map (fun nt => joinPath sep out nt.1)
      ∧ (generate sep out oracle reg).length = reg.length := by
  intro sep out oracle reg
  refine ⟨?_, ?_, ?_⟩ <;> simp [generate, List.map_map, Function.comp]

end Tplgen
